import Mathlib

/-!
Shallow embedding of `src/scripts/phoenix_zpa_engine.py` (the Phoenix-ZPA
fixed-record memory-mapped storage engine).

Modelling conventions:
* The mapped extent (`mmap` of `size_bytes` bytes) is a function `Nat → Nat`
  giving the byte stored at each address; the engine state carries it together
  with the extent size.  The initial extent is zero-filled (`truncate` of a
  fresh file).
* Python `float` arithmetic in `_calculate_h_score` is modelled with exact
  rationals; every comparison settled below is far from a floating-point tie.
* Python exceptions are modelled with `Except`: `write_atom`'s explicit
  `raise IndexError("Storage Full")` is `PyError.indexError`, and the
  `ValueError` that `ctypes` `from_buffer` raises on a negative offset or an
  offset past the end of the buffer is `PyError.valueError`.
* ctypes integer fields wrap modulo their width on assignment, and a
  `c_char * 32` field read stops at the first NUL byte; both behaviours are
  reproduced byte-for-byte (little-endian, `_pack_ = 1` layout:
  magic@0, pi_index@2, geo_hash@10, schema@18, h_score@20, flags@22,
  payload@24, strands@56).
* `time.time() * 1000` is an input of `write_atom` (`now_ms`).
-/

/-- PHI = 1.61803398875 from the source. -/
def PHI : ℚ := 1.61803398875

/-- H_THRESHOLD = 1.0 / PHI from the source. -/
def H_THRESHOLD : ℚ := 1 / PHI

/-- ATOM_SIZE = 64 from the source. -/
def ATOM_SIZE : Nat := 64

/-- MAGIC_SIG = 0x1F0 from the source. -/
def MAGIC_SIG : Nat := 0x1F0

/-- Write a list of byte values starting at address `a`
(later bytes at increasing addresses). -/
def writeBytes (m : Nat → Nat) : Nat → List Nat → (Nat → Nat)
  | _, [] => m
  | a, b :: bs => writeBytes (fun x => if x = a then b else m x) (a + 1) bs

/-- Read `n` bytes starting at address `a`. -/
def readBytes (m : Nat → Nat) : Nat → Nat → List Nat
  | _, 0 => []
  | a, n + 1 => m a :: readBytes m (a + 1) n

/-- Little-endian byte encoding of `v` in `w` bytes (wraps modulo `256 ^ w`,
exactly as assignment to a ctypes `c_uintN` field wraps). -/
def toBytesLE : Nat → Nat → List Nat
  | 0, _ => []
  | w + 1, v => v % 256 :: toBytesLE w (v / 256)

/-- Little-endian decoding of the `n` bytes at address `a`, as a ctypes
`c_uintN` field read assembles them. -/
def decodeLE (m : Nat → Nat) (a n : Nat) : Nat :=
  (readBytes m a n).foldr (fun b acc => b + 256 * acc) 0

/-- `bytes.ljust(32, b'\0')` for a list of at most 32 bytes. -/
def ljust32 (l : List Nat) : List Nat := l ++ List.replicate (32 - l.length) 0

/-- `data_bytes[:32].ljust(32, b'\0')` — the `clean_payload` of `write_atom`. -/
def cleanPayload (data_bytes : List Nat) : List Nat := ljust32 (data_bytes.take 32)

/-- `len(set(payload)) / len(payload) if payload else 0` from
`_calculate_h_score`. -/
def entropyOf (payload : List Nat) : ℚ :=
  if payload.isEmpty then 0 else (payload.dedup.length : ℚ) / (payload.length : ℚ)

/-- `PhoenixZPA._calculate_h_score`: `min(0.99, entropy * PHI)`. -/
def calculate_h_score (payload : List Nat) : ℚ :=
  min (99 / 100) (entropyOf payload * PHI)

/-- `int(h_score_val * 10000)` (nonnegative, so `int` = floor) as stored in
the 2-byte `h_score` field. -/
def hScoreStored (h : ℚ) : Nat := (⌊h * 10000⌋).toNat

/-- The decoded view of an `FC496Struct` overlay: integer fields as ctypes
returns them, `payload` as the `c_char * 32` field reads back — the stored
bytes up to (excluding) the first NUL. -/
structure FC496View where
  magic : Nat
  pi_index : Nat
  geo_hash : Nat
  schema : Nat
  h_score : Nat
  flags : Nat
  payload : List Nat
  strands : Nat
deriving DecidableEq, Repr

/-- Decode the slot whose first byte is at `off`. -/
def readView (m : Nat → Nat) (off : Nat) : FC496View where
  magic := decodeLE m off 2
  pi_index := decodeLE m (off + 2) 8
  geo_hash := decodeLE m (off + 10) 8
  schema := decodeLE m (off + 18) 2
  h_score := decodeLE m (off + 20) 2
  flags := decodeLE m (off + 22) 2
  payload := (readBytes m (off + 24) 32).takeWhile (fun b => b != 0)
  strands := decodeLE m (off + 56) 8

/-- The field assignments of `write_atom` step 4, in source order, at slot
offset `off`. -/
def writeFields (m : Nat → Nat) (off now_ms schema_type hsc : Nat)
    (payload32 : List Nat) : Nat → Nat :=
  let m1 := writeBytes m off (toBytesLE 2 MAGIC_SIG)
  let m2 := writeBytes m1 (off + 2) (toBytesLE 8 now_ms)
  let m3 := writeBytes m2 (off + 10) (toBytesLE 8 0xCAFEBABE)
  let m4 := writeBytes m3 (off + 18) (toBytesLE 2 schema_type)
  let m5 := writeBytes m4 (off + 20) (toBytesLE 2 hsc)
  let m6 := writeBytes m5 (off + 22) (toBytesLE 2 42)
  let m7 := writeBytes m6 (off + 24) payload32
  writeBytes m7 (off + 56) (toBytesLE 8 0xDEADBEEF)

/-- Python exceptions the engine can surface per operation. -/
inductive PyError where
  | indexError
  | valueError
deriving DecidableEq, Repr

/-- Engine state: the extent size fixed at construction and the mapped bytes. -/
structure ZPAState where
  size_bytes : Nat
  mem : Nat → Nat

/-- `self.atom_capacity = self.size_bytes // ATOM_SIZE`. -/
def atomCapacity (st : ZPAState) : Nat := st.size_bytes / ATOM_SIZE

/-- `PhoenixZPA.__init__` with a fresh (hence zero-filled) backing file:
`size_bytes = size_mb * 1024 * 1024`. -/
def mkZPA (size_mb : Nat) : ZPAState where
  size_bytes := size_mb * 1024 * 1024
  mem := fun _ => 0

/-- `PhoenixZPA.write_atom(index, data_bytes, schema_type)` at time `now_ms`.
Mirrors the source order: capacity bound (raises `IndexError`), admission
filter (returns `False`), then the `from_buffer` overlay (raises `ValueError`
when the offset is negative or the slot does not fit in the buffer), then the
eight field assignments. -/
def write_atom (st : ZPAState) (index : Int) (data_bytes : List Nat)
    (schema_type now_ms : Nat) : Except PyError (Bool × ZPAState) :=
  if (atomCapacity st : Int) ≤ index then .error .indexError
  else
    let h_score_val := calculate_h_score data_bytes
    if h_score_val < H_THRESHOLD then .ok (false, st)
    else
      let offset : Int := index * (ATOM_SIZE : Int)
      if offset < 0 then .error .valueError
      else if st.size_bytes < offset.toNat + ATOM_SIZE then .error .valueError
      else
        .ok (true, { st with
          mem := writeFields st.mem offset.toNat now_ms schema_type
            (hScoreStored h_score_val) (cleanPayload data_bytes) })

/-- `PhoenixZPA.read_atom(index)`: no explicit bounds check in the source —
the `from_buffer` overlay raises `ValueError` out of range; a magic mismatch
returns `None` (absent). -/
def read_atom (st : ZPAState) (index : Int) : Except PyError (Option FC496View) :=
  let offset : Int := index * (ATOM_SIZE : Int)
  if offset < 0 then .error .valueError
  else if st.size_bytes < offset.toNat + ATOM_SIZE then .error .valueError
  else if decodeLE st.mem offset.toNat 2 ≠ MAGIC_SIG then .ok none
  else .ok (some (readView st.mem offset.toNat))

/-- Projection of a write result onto its returned boolean (`none` when the
call raised). -/
def writeOk (r : Except PyError (Bool × ZPAState)) : Option Bool :=
  match r with
  | .ok (b, _) => some b
  | .error _ => none

/-- The payload a caller sees from `read_atom` (`none` when the call raised
or the slot was absent). -/
def readPayload (st : ZPAState) (index : Int) : Option (List Nat) :=
  match read_atom st index with
  | .ok (some v) => some v.payload
  | _ => none

/-- One driver-issued `write_atom` call. -/
structure WriteOp where
  index : Int
  data : List Nat
  schema : Nat
  now : Nat

/-- State after one `write_atom` call (an exception leaves the extent
untouched: every raise in the source happens before any field assignment). -/
def stepWrite (st : ZPAState) (op : WriteOp) : ZPAState :=
  match write_atom st op.index op.data op.schema op.now with
  | .ok (_, st') => st'
  | .error _ => st

/-- State after a sequence of `write_atom` calls. -/
def runTrace (st : ZPAState) : List WriteOp → ZPAState
  | [] => st
  | op :: ops => runTrace (stepWrite st op) ops

/-- Whether some call of the trace successfully wrote slot `i`. -/
def wroteSlot (st : ZPAState) (i : Int) : List WriteOp → Bool
  | [] => false
  | op :: ops =>
    ((op.index == i) && (writeOk (write_atom st op.index op.data op.schema op.now) == some true))
      || wroteSlot (stepWrite st op) i ops

/-- The payload of the benchmark harness, `b"Lichen Universe Semantic Payload V3"`. -/
def lichenPayload : List Nat :=
  [76, 105, 99, 104, 101, 110, 32, 85, 110, 105, 118, 101, 114, 115, 101, 32,
   83, 101, 109, 97, 110, 116, 105, 99, 32, 80, 97, 121, 108, 111, 97, 100,
   32, 86, 51]

/-! ### Byte-level lemmas about the mapped extent -/

theorem toBytesLE_length (w v : Nat) : (toBytesLE w v).length = w := by
  induction w generalizing v with
  | zero => rfl
  | succ w ih => simp only [toBytesLE, List.length_cons, ih]

theorem cleanPayload_length (d : List Nat) : (cleanPayload d).length = 32 := by
  simp only [cleanPayload, ljust32, List.length_append, List.length_replicate,
    List.length_take]
  omega

theorem writeBytes_ne (bs : List Nat) (m : Nat → Nat) (a x : Nat)
    (h : x < a ∨ a + bs.length ≤ x) : writeBytes m a bs x = m x := by
  induction bs generalizing m a with
  | nil => rfl
  | cons b bs ih =>
    simp only [List.length_cons] at h
    simp only [writeBytes]
    rw [ih _ (a + 1) (by omega)]
    have hx : x ≠ a := by omega
    simp [hx]

theorem readBytes_writeBytes (bs : List Nat) (m : Nat → Nat) (a : Nat) :
    readBytes (writeBytes m a bs) a bs.length = bs := by
  induction bs generalizing m a with
  | nil => rfl
  | cons b bs ih =>
    simp only [writeBytes, List.length_cons, readBytes]
    rw [writeBytes_ne bs _ (a + 1) a (by omega)]
    congr 1
    · simp
    · exact ih _ (a + 1)

theorem readBytes_congr (n : Nat) (m1 m2 : Nat → Nat) (a : Nat)
    (h : ∀ k, k < n → m1 (a + k) = m2 (a + k)) :
    readBytes m1 a n = readBytes m2 a n := by
  induction n generalizing a with
  | zero => rfl
  | succ n ih =>
    simp only [readBytes]
    have h0 := h 0 (by omega)
    simp only [Nat.add_zero] at h0
    rw [h0, ih (a + 1) (fun k hk => by
      have hx := h (k + 1) (by omega)
      rw [show a + (k + 1) = a + 1 + k by omega] at hx
      exact hx)]

theorem readBytes_writeBytes_self (bs : List Nat) (m : Nat → Nat) (a n : Nat)
    (h : bs.length = n) : readBytes (writeBytes m a bs) a n = bs := by
  subst h
  exact readBytes_writeBytes bs m a

theorem readBytes_writeBytes_disjoint (bs : List Nat) (m : Nat → Nat) (a b n : Nat)
    (h : b + n ≤ a ∨ a + bs.length ≤ b) :
    readBytes (writeBytes m a bs) b n = readBytes m b n := by
  apply readBytes_congr
  intro k hk
  exact writeBytes_ne bs m a (b + k) (by omega)

theorem decodeLE_two (m : Nat → Nat) (a : Nat) :
    decodeLE m a 2 = m a + 256 * m (a + 1) := by
  show m a + 256 * (m (a + 1) + 256 * 0) = m a + 256 * m (a + 1)
  ring

theorem foldLE_two (v : Nat) (hv : v < 65536) :
    (toBytesLE 2 v).foldr (fun b acc => b + 256 * acc) 0 = v := by
  show v % 256 + 256 * (v / 256 % 256 + 256 * 0) = v
  omega

/-! ### Reading the fields of a freshly written slot -/

theorem writeFields_read_magic (m : Nat → Nat) (off t s hsc : Nat) (p32 : List Nat) :
    readBytes (writeFields m off t s hsc p32) off 2 = toBytesLE 2 MAGIC_SIG := by
  simp only [writeFields]
  rw [readBytes_writeBytes_disjoint, readBytes_writeBytes_disjoint,
    readBytes_writeBytes_disjoint, readBytes_writeBytes_disjoint,
    readBytes_writeBytes_disjoint, readBytes_writeBytes_disjoint,
    readBytes_writeBytes_disjoint, readBytes_writeBytes_self]
  all_goals try simp only [toBytesLE_length]
  all_goals omega

theorem writeFields_read_schema (m : Nat → Nat) (off t s hsc : Nat) (p32 : List Nat) :
    readBytes (writeFields m off t s hsc p32) (off + 18) 2 = toBytesLE 2 s := by
  simp only [writeFields]
  rw [readBytes_writeBytes_disjoint, readBytes_writeBytes_disjoint,
    readBytes_writeBytes_disjoint, readBytes_writeBytes_disjoint,
    readBytes_writeBytes_self]
  all_goals try simp only [toBytesLE_length]
  all_goals omega

theorem writeFields_read_payload (m : Nat → Nat) (off t s hsc : Nat) (p32 : List Nat)
    (hp : p32.length = 32) :
    readBytes (writeFields m off t s hsc p32) (off + 24) 32 = p32 := by
  simp only [writeFields]
  rw [readBytes_writeBytes_disjoint, readBytes_writeBytes_self]
  · exact hp
  · simp only [toBytesLE_length]
    omega

theorem decodeLE_writeFields_magic (m : Nat → Nat) (off t s hsc : Nat)
    (p32 : List Nat) :
    decodeLE (writeFields m off t s hsc p32) off 2 = MAGIC_SIG := by
  unfold decodeLE
  rw [writeFields_read_magic]
  decide

theorem decodeLE_writeFields_schema (m : Nat → Nat) (off t s hsc : Nat)
    (p32 : List Nat) (hs : s < 65536) :
    decodeLE (writeFields m off t s hsc p32) (off + 18) 2 = s := by
  unfold decodeLE
  rw [writeFields_read_schema]
  exact foldLE_two s hs

theorem writeFields_ne (m : Nat → Nat) (off t s hsc : Nat) (p32 : List Nat)
    (hp : p32.length = 32) (x : Nat) (hx : x < off ∨ off + 64 ≤ x) :
    writeFields m off t s hsc p32 x = m x := by
  simp only [writeFields]
  rw [writeBytes_ne, writeBytes_ne, writeBytes_ne, writeBytes_ne, writeBytes_ne,
    writeBytes_ne, writeBytes_ne, writeBytes_ne]
  all_goals try simp only [toBytesLE_length, hp]
  all_goals omega

/-! ### Characterisations of `write_atom` and `read_atom` -/

theorem write_atom_indexError (st : ZPAState) (idx : Int) (d : List Nat) (s n : Nat)
    (h : (atomCapacity st : Int) ≤ idx) :
    write_atom st idx d s n = .error .indexError := by
  simp only [write_atom]
  rw [if_pos h]

theorem write_atom_reject (st : ZPAState) (idx : Int) (d : List Nat) (s n : Nat)
    (hidx : idx < (atomCapacity st : Int))
    (hlow : calculate_h_score d < H_THRESHOLD) :
    write_atom st idx d s n = .ok (false, st) := by
  simp only [write_atom]
  rw [if_neg (not_le.mpr hidx), if_pos hlow]

theorem write_atom_neg_valueError (st : ZPAState) (idx : Int) (d : List Nat) (s n : Nat)
    (hneg : idx < 0) (hadm : H_THRESHOLD ≤ calculate_h_score d) :
    write_atom st idx d s n = .error .valueError := by
  simp only [write_atom, ATOM_SIZE, Nat.cast_ofNat]
  have hcap : ¬ ((atomCapacity st : Int) ≤ idx) := by
    have : (0 : Int) ≤ (atomCapacity st : Int) := Int.natCast_nonneg _
    omega
  have hoff : idx * (64 : Int) < 0 := by omega
  rw [if_neg hcap, if_neg (not_lt.mpr hadm), if_pos hoff]

theorem write_atom_ok_true (st : ZPAState) (i : Nat) (d : List Nat) (s n : Nat)
    (hi : i < atomCapacity st) (hfit : i * 64 + 64 ≤ st.size_bytes)
    (hadm : H_THRESHOLD ≤ calculate_h_score d) :
    write_atom st (i : Int) d s n =
      .ok (true, ⟨st.size_bytes,
        writeFields st.mem (i * 64) n s (hScoreStored (calculate_h_score d))
          (cleanPayload d)⟩) := by
  simp only [write_atom, ATOM_SIZE, Nat.cast_ofNat]
  have hcap : ¬ ((atomCapacity st : Int) ≤ (i : Int)) := by
    rw [not_le]
    exact_mod_cast hi
  have hoff : ((i : Int) * 64).toNat = i * 64 := by omega
  rw [if_neg hcap, if_neg (not_lt.mpr hadm), if_neg (by omega), if_neg (by omega), hoff]

theorem write_atom_false_state (st : ZPAState) (idx : Int) (d : List Nat) (s n : Nat)
    (st' : ZPAState) (h : write_atom st idx d s n = .ok (false, st')) : st' = st := by
  simp only [write_atom] at h
  split at h
  · simp at h
  · split at h
    · injection h with h1
      injection h1 with h2 h3
      exact h3.symm
    · split at h
      · simp at h
      · split at h
        · simp at h
        · injection h with h1
          injection h1 with h2 h3
          simp at h2

theorem write_atom_true_elim (st : ZPAState) (idx : Int) (d : List Nat) (s n : Nat)
    (st' : ZPAState) (h : write_atom st idx d s n = .ok (true, st')) :
    ∃ i : Nat, idx = (i : Int) ∧ i < atomCapacity st ∧ i * 64 + 64 ≤ st.size_bytes ∧
      H_THRESHOLD ≤ calculate_h_score d ∧
      st'.size_bytes = st.size_bytes ∧
      st'.mem = writeFields st.mem (i * 64) n s
        (hScoreStored (calculate_h_score d)) (cleanPayload d) := by
  simp only [write_atom, ATOM_SIZE, Nat.cast_ofNat] at h
  split at h
  · simp at h
  · next hcap =>
    split at h
    · injection h with h1
      injection h1 with h2 h3
      simp at h2
    · next hadm =>
      split at h
      · simp at h
      · next hneg =>
        split at h
        · simp at h
        · next hsize =>
          injection h with h1
          injection h1 with h2 h3
          refine ⟨idx.toNat, by omega, by omega, by omega, not_lt.mp hadm, ?_, ?_⟩
          · rw [← h3]
          · rw [← h3]
            have hoff : (idx * 64).toNat = idx.toNat * 64 := by omega
            rw [hoff]

theorem read_atom_neg_valueError (st : ZPAState) (idx : Int) (hneg : idx < 0) :
    read_atom st idx = .error .valueError := by
  simp only [read_atom, ATOM_SIZE, Nat.cast_ofNat]
  rw [if_pos (by omega : idx * (64 : Int) < 0)]

theorem read_atom_pastEnd_valueError (st : ZPAState) (idx : Int) (h0 : 0 ≤ idx)
    (h : st.size_bytes < (idx * 64).toNat + 64) :
    read_atom st idx = .error .valueError := by
  simp only [read_atom, ATOM_SIZE, Nat.cast_ofNat]
  rw [if_neg (by omega), if_pos (by omega)]

theorem read_atom_absent (st : ZPAState) (i : Nat) (hfit : i * 64 + 64 ≤ st.size_bytes)
    (hmagic : decodeLE st.mem (i * 64) 2 ≠ MAGIC_SIG) :
    read_atom st (i : Int) = .ok none := by
  simp only [read_atom, ATOM_SIZE, Nat.cast_ofNat]
  have hoff : (((i : Int)) * 64).toNat = i * 64 := by omega
  rw [if_neg (by omega), if_neg (by omega), if_pos (by rw [hoff]; exact hmagic)]

theorem read_atom_present (st : ZPAState) (i : Nat) (hfit : i * 64 + 64 ≤ st.size_bytes)
    (hmagic : decodeLE st.mem (i * 64) 2 = MAGIC_SIG) :
    read_atom st (i : Int) = .ok (some (readView st.mem (i * 64))) := by
  simp only [read_atom, ATOM_SIZE, Nat.cast_ofNat]
  have hoff : (((i : Int)) * 64).toNat = i * 64 := by omega
  rw [if_neg (by omega), if_neg (by omega), if_neg (by rw [hoff, hmagic]; simp), hoff]

/-! ### Traces of writes -/

theorem write_atom_state_size (st : ZPAState) (idx : Int) (d : List Nat) (s n : Nat)
    (b : Bool) (st' : ZPAState) (h : write_atom st idx d s n = .ok (b, st')) :
    st'.size_bytes = st.size_bytes := by
  cases b with
  | false => rw [write_atom_false_state st idx d s n st' h]
  | true =>
    obtain ⟨i, _, _, _, _, hsz, _⟩ := write_atom_true_elim st idx d s n st' h
    exact hsz

theorem stepWrite_size (st : ZPAState) (op : WriteOp) :
    (stepWrite st op).size_bytes = st.size_bytes := by
  unfold stepWrite
  split
  · next b st' heq =>
    exact write_atom_state_size st op.index op.data op.schema op.now b st' heq
  · rfl

theorem runTrace_size (ops : List WriteOp) (st : ZPAState) :
    (runTrace st ops).size_bytes = st.size_bytes := by
  induction ops generalizing st with
  | nil => rfl
  | cons op ops ih => rw [runTrace, ih, stepWrite_size]

theorem stepWrite_slot_preserved (st : ZPAState) (op : WriteOp) (i : Nat)
    (hno : ¬ (op.index = (i : Int) ∧
      writeOk (write_atom st op.index op.data op.schema op.now) = some true))
    (k : Nat) (hk : k < 64) :
    (stepWrite st op).mem (i * 64 + k) = st.mem (i * 64 + k) := by
  unfold stepWrite
  split
  · next b st' heq =>
    cases b with
    | false => rw [write_atom_false_state st op.index op.data op.schema op.now st' heq]
    | true =>
      obtain ⟨j, hj, _, _, _, _, hmem⟩ :=
        write_atom_true_elim st op.index op.data op.schema op.now st' heq
      have hji : j ≠ i := by
        intro hcontra
        exact hno ⟨by rw [hj, hcontra], by rw [heq]; rfl⟩
      simp only [hmem]
      exact writeFields_ne st.mem (j * 64) op.now op.schema _ _
        (cleanPayload_length op.data) _ (by omega)
  · rfl

theorem runTrace_slot_preserved (ops : List WriteOp) (st : ZPAState) (i : Nat)
    (h : wroteSlot st (i : Int) ops = false) (k : Nat) (hk : k < 64) :
    (runTrace st ops).mem (i * 64 + k) = st.mem (i * 64 + k) := by
  induction ops generalizing st with
  | nil => rfl
  | cons op ops ih =>
    simp only [wroteSlot, Bool.or_eq_false_iff, Bool.and_eq_false_iff] at h
    obtain ⟨h1, h2⟩ := h
    rw [runTrace, ih _ h2, stepWrite_slot_preserved st op i ?hno k hk]
    intro hcontra
    obtain ⟨hidx, hok⟩ := hcontra
    rcases h1 with h1 | h1
    · rw [beq_eq_false_iff_ne] at h1
      exact h1 hidx
    · rw [beq_eq_false_iff_ne] at h1
      exact h1 hok

/-! ### Admission-score facts -/

theorem atomCapacity_mkZPA (size_mb : Nat) :
    atomCapacity (mkZPA size_mb) = size_mb * 16384 := by
  simp only [atomCapacity, mkZPA, ATOM_SIZE]
  omega

theorem fit_of_lt_capacity (st : ZPAState) (h64 : st.size_bytes % 64 = 0) (i : Nat)
    (hi : i < atomCapacity st) : i * 64 + 64 ≤ st.size_bytes := by
  simp only [atomCapacity, ATOM_SIZE] at hi
  omega

theorem calculate_h_score_nil : calculate_h_score [] = 0 := by
  simp [calculate_h_score, entropyOf]
  norm_num [min_def]

theorem calculate_h_score_of_ne_nil (d : List Nat) (h : d ≠ []) :
    calculate_h_score d =
      min (99 / 100) ((d.dedup.length : ℚ) / (d.length : ℚ) * PHI) := by
  cases d with
  | nil => exact absurd rfl h
  | cons a l => simp [calculate_h_score, entropyOf]

theorem dedup_replicate_zero (m : Nat) (hm : 1 ≤ m) :
    (List.replicate m (0 : Nat)).dedup = [0] := by
  induction m with
  | zero => omega
  | succ k ih =>
    rcases Nat.eq_zero_or_pos k with h0 | hpos
    · subst h0
      decide
    · rw [List.replicate_succ,
        List.dedup_cons_of_mem (by simp [List.mem_replicate]; omega), ih hpos]

theorem score_replicate_zero_lt (m : Nat) (hm : 3 ≤ m) :
    calculate_h_score (List.replicate m 0) < H_THRESHOLD := by
  have hne : List.replicate m (0 : Nat) ≠ [] := by
    intro h
    have hl := congrArg List.length h
    simp at hl
    omega
  rw [calculate_h_score_of_ne_nil _ hne, dedup_replicate_zero m (by omega),
    List.length_replicate]
  apply lt_of_le_of_lt (min_le_right _ _)
  have hm3 : (3 : ℚ) ≤ (m : ℚ) := by exact_mod_cast hm
  have hPHI : (0 : ℚ) < PHI := by norm_num [PHI]
  have hmq : (0 : ℚ) < (m : ℚ) := by linarith
  have h1 : ((([0] : List Nat).length : ℚ)) = 1 := by norm_num
  rw [h1, H_THRESHOLD, div_mul_eq_mul_div, one_mul, div_lt_div_iff₀ hmq hPHI]
  have hsq : PHI * PHI < 3 := by norm_num [PHI]
  calc PHI * PHI < 3 := hsq
  _ ≤ (m : ℚ) := hm3
  _ = (m : ℚ) * 1 := by ring
  _ ≤ 1 * (m : ℚ) := by ring_nf; exact le_refl _

theorem score_short_ge (d : List Nat) (hlen : d.length = 1 ∨ d.length = 2) :
    min (99 / 100) ((1 / 2) * PHI) ≤ calculate_h_score d ∧
    H_THRESHOLD ≤ calculate_h_score d := by
  have hne : d ≠ [] := by
    intro h
    subst h
    simp at hlen
  have hded : 1 ≤ d.dedup.length := by
    have h1 : d.dedup ≠ [] := by
      rw [ne_eq, List.dedup_eq_nil]
      exact hne
    have := List.length_pos.mpr h1
    omega
  have hPHI : (0 : ℚ) < PHI := by norm_num [PHI]
  have h2 : (1 / 2 : ℚ) ≤ (d.dedup.length : ℚ) / (d.length : ℚ) := by
    have hd1 : (1 : ℚ) ≤ (d.dedup.length : ℚ) := by exact_mod_cast hded
    rcases hlen with h | h <;> rw [h] <;> push_cast <;>
      rw [le_div_iff₀ (by norm_num)] <;> linarith
  have hmono : min ((99 : ℚ) / 100) ((1 / 2) * PHI) ≤
      min (99 / 100) ((d.dedup.length : ℚ) / (d.length : ℚ) * PHI) := by
    apply min_le_min (le_refl _)
    apply mul_le_mul_of_nonneg_right h2 (le_of_lt hPHI)
  rw [calculate_h_score_of_ne_nil d hne]
  constructor
  · exact hmono
  · refine le_trans ?_ hmono
    apply le_min
    · norm_num [H_THRESHOLD, PHI]
    · norm_num [H_THRESHOLD, PHI]

/-! ### Reading back after a successful write -/

theorem takeWhile_nonzero_self (l : List Nat) (h : ∀ b ∈ l, b ≠ 0) :
    l.takeWhile (fun b => b != 0) = l := by
  induction l with
  | nil => rfl
  | cons a l ih =>
    have ha : (a != 0) = true := by
      simp only [bne_iff_ne, ne_eq]
      exact h a (by simp)
    rw [List.takeWhile_cons, ha]
    simp only [if_true]
    rw [ih (fun b hb => h b (by simp [hb]))]

theorem takeWhile_nonzero_append (pre rest : List Nat) (h : ∀ b ∈ pre, b ≠ 0) :
    (pre ++ 0 :: rest).takeWhile (fun b => b != 0) = pre := by
  induction pre with
  | nil => simp [List.takeWhile_cons]
  | cons a l ih =>
    have ha : (a != 0) = true := by
      simp only [bne_iff_ne, ne_eq]
      exact h a (by simp)
    rw [List.cons_append, List.takeWhile_cons, ha]
    simp only [if_true]
    rw [ih (fun b hb => h b (by simp [hb]))]

theorem readPayload_after_write (st st' : ZPAState) (idx : Int) (d : List Nat)
    (s n : Nat) (h : write_atom st idx d s n = .ok (true, st')) :
    readPayload st' idx = some ((cleanPayload d).takeWhile (fun b => b != 0)) := by
  obtain ⟨i, rfl, hcap, hfit, hadm, hsz, hmem⟩ := write_atom_true_elim st _ d s n st' h
  have hread : read_atom st' (i : Int) = .ok (some (readView st'.mem (i * 64))) := by
    apply read_atom_present st' i (by omega)
    rw [hmem]
    exact decodeLE_writeFields_magic _ _ _ _ _ _
  unfold readPayload
  rw [hread]
  show some (readView st'.mem (i * 64)).payload = _
  simp only [readView]
  rw [hmem, writeFields_read_payload _ _ _ _ _ _ (cleanPayload_length d)]

theorem read_other_slot_after_write (st st' : ZPAState) (idx : Int) (d : List Nat)
    (s n : Nat) (h : write_atom st idx d s n = .ok (true, st')) (j : Nat)
    (hj : (j : Int) ≠ idx) (hfit : j * 64 + 64 ≤ st.size_bytes)
    (hz0 : st.mem (j * 64) = 0) (hz1 : st.mem (j * 64 + 1) = 0) :
    read_atom st' (j : Int) = .ok none := by
  obtain ⟨i, rfl, hcap, hfit2, hadm, hsz, hmem⟩ := write_atom_true_elim st _ d s n st' h
  have hji : j ≠ i := fun hc => hj (by rw [hc])
  apply read_atom_absent st' j (by omega)
  rw [decodeLE_two, hmem,
    writeFields_ne _ _ _ _ _ _ (cleanPayload_length d) _ (by omega),
    writeFields_ne _ _ _ _ _ _ (cleanPayload_length d) _ (by omega), hz0, hz1]
  norm_num [MAGIC_SIG]

/-! ### The claims -/

/-- Claim C7 (confirmed): the engine's capacity equals the extent size in
bytes divided by 64 exactly — with no remainder slot, since the size
(`size_mb * 1024 * 1024`) is a multiple of 64 — computed once at construction
and unchanged by any subsequent sequence of writes; in particular for
`size_bytes = 100 * 1024 * 1024` the capacity is exactly `size_bytes / 64`. -/
theorem C7_capacity_derivation (size_mb : Nat) :
    (mkZPA size_mb).size_bytes = size_mb * 1024 * 1024 ∧
    atomCapacity (mkZPA size_mb) = (mkZPA size_mb).size_bytes / 64 ∧
    atomCapacity (mkZPA size_mb) * 64 = (mkZPA size_mb).size_bytes ∧
    (∀ ops : List WriteOp,
      atomCapacity (runTrace (mkZPA size_mb) ops) = atomCapacity (mkZPA size_mb)) ∧
    atomCapacity (mkZPA 100) = 100 * 1024 * 1024 / 64 ∧
    atomCapacity (mkZPA 100) = 1638400 := by
  refine ⟨rfl, rfl, ?_, ?_, rfl, ?_⟩
  · rw [atomCapacity_mkZPA]
    simp only [mkZPA]
    omega
  · intro ops
    unfold atomCapacity
    rw [runTrace_size]
  · rw [atomCapacity_mkZPA]

/-- Claim C2 (corrected): when the admission score of the payload is below
the threshold `1/PHI` (and the index passes the capacity test, which is
checked first), `write_atom` returns `false` and leaves the state — hence
every slot's magic — entirely unchanged; the score is
`min(0.99, distinct_bytes/length * PHI)`, `0` for the empty payload, and an
all-zero payload of any length `m ≥ 3` scores `PHI/m`, below the threshold.
The original claim's "all-zero bytes of any length score 0" is false: see the
counterexample (length-1 and length-2 all-zero payloads are admitted). -/
theorem C2_rejection_amended (st : ZPAState) (idx : Int) (d : List Nat) (s n : Nat)
    (hidx : idx < (atomCapacity st : Int))
    (hlow : calculate_h_score d < H_THRESHOLD) :
    write_atom st idx d s n = .ok (false, st) ∧
    calculate_h_score [] = 0 ∧
    (∀ m : Nat, 3 ≤ m → calculate_h_score (List.replicate m 0) < H_THRESHOLD) ∧
    (∀ p : List Nat, calculate_h_score p = min (99 / 100) (entropyOf p * PHI)) :=
  ⟨write_atom_reject st idx d s n hidx hlow, calculate_h_score_nil,
    score_replicate_zero_lt, fun _ => rfl⟩

/-- Claim C2, the counterexample: the all-zero payload `[0]` of length 1
scores `min(0.99, PHI) = 0.99`, not 0, and `write_atom` admits it,
returning `true`. -/
theorem C2_counterexample :
    calculate_h_score [0] = 99 / 100 ∧
    calculate_h_score [0] ≠ 0 ∧
    H_THRESHOLD ≤ calculate_h_score [0] ∧
    writeOk (write_atom (mkZPA 1) 0 [0] 1 0) = some true := by
  have h : calculate_h_score [0] = 99 / 100 := by
    rw [calculate_h_score_of_ne_nil _ (by decide),
      show ([0] : List Nat).dedup = [0] by decide]
    norm_num [min_def, PHI]
  have hadm : H_THRESHOLD ≤ calculate_h_score [0] := by
    rw [h]
    norm_num [H_THRESHOLD, PHI]
  refine ⟨h, by rw [h]; norm_num, hadm, ?_⟩
  have hw := write_atom_ok_true (mkZPA 1) 0 [0] 1 0
    (by rw [atomCapacity_mkZPA]; norm_num) (by simp [mkZPA]) hadm
  simp only [Nat.cast_zero] at hw
  rw [hw]
  rfl

/-- Claim C2, witness: a rejected write (all-zero payload of length 3 at
index 0 of a 1 MB engine) returns `false` with the state unchanged. -/
theorem C2_witness :
    write_atom (mkZPA 1) 0 (List.replicate 3 0) 1 0 = .ok (false, mkZPA 1) :=
  (C2_rejection_amended (mkZPA 1) 0 (List.replicate 3 0) 1 0
    (by rw [atomCapacity_mkZPA]; norm_num)
    (score_replicate_zero_lt 3 (by norm_num))).1

/-- Claim C10 (confirmed): every payload of length 1 or 2 — all-zero
included — scores at least `min(0.99, PHI/2)`, which is above the threshold
`1/PHI`, so `write_atom` at any valid index of an engine whose extent is a
multiple of 64 bytes is never rejected and returns `true`. -/
theorem C10_short_payload_admitted (st : ZPAState) (h64 : st.size_bytes % 64 = 0)
    (i : Nat) (hi : i < atomCapacity st) (d : List Nat)
    (hlen : d.length = 1 ∨ d.length = 2) (s n : Nat) :
    min (99 / 100) ((1 / 2) * PHI) ≤ calculate_h_score d ∧
    H_THRESHOLD ≤ calculate_h_score d ∧
    writeOk (write_atom st (i : Int) d s n) = some true := by
  obtain ⟨hmin, hadm⟩ := score_short_ge d hlen
  refine ⟨hmin, hadm, ?_⟩
  rw [write_atom_ok_true st i d s n hi (fit_of_lt_capacity st h64 i hi) hadm]
  rfl

/-- Claim C10, witness: the all-zero length-1 payload `[0]` is admitted at
index 5 of a 1 MB engine. -/
theorem C10_witness :
    min (99 / 100) ((1 / 2) * PHI) ≤ calculate_h_score [0] ∧
    H_THRESHOLD ≤ calculate_h_score [0] ∧
    writeOk (write_atom (mkZPA 1) 5 [0] 1 0) = some true := by
  have := C10_short_payload_admitted (mkZPA 1) (by simp [mkZPA]) 5
    (by rw [atomCapacity_mkZPA]; norm_num) [0] (by norm_num) 1 0
  simpa using this

/-- Claim C5 (confirmed): starting from the zero-filled extent, after any
sequence of `write_atom` calls none of which successfully wrote slot `i`
(rejected, erroring, or other-slot writes are allowed), `read_atom(i)` at a
valid index `i` returns absent (`.ok none`) — not an error and not a
zeroed-but-valid record — because the slot's magic (still 0) differs from
the sentinel. -/
theorem C5_never_written_absent (size_mb : Nat) (i : Nat) (ops : List WriteOp)
    (hi : i < atomCapacity (mkZPA size_mb))
    (hnw : wroteSlot (mkZPA size_mb) (i : Int) ops = false) :
    read_atom (runTrace (mkZPA size_mb) ops) (i : Int) = .ok none := by
  have hsz := runTrace_size ops (mkZPA size_mb)
  apply read_atom_absent (runTrace (mkZPA size_mb) ops) i
  · rw [hsz]
    exact fit_of_lt_capacity (mkZPA size_mb) (by simp only [mkZPA]; omega) i hi
  · have e0 := runTrace_slot_preserved ops (mkZPA size_mb) i hnw 0 (by omega)
    have e1 := runTrace_slot_preserved ops (mkZPA size_mb) i hnw 1 (by omega)
    simp only [Nat.add_zero] at e0
    rw [decodeLE_two, e0, e1]
    simp [mkZPA, MAGIC_SIG]

/-- Claim C5, witness: after one successful write to slot 0 of a 1 MB
engine, slot 1 still reads absent. -/
theorem C5_witness :
    read_atom (runTrace (mkZPA 1) [⟨0, [65], 1, 0⟩]) (1 : Int) = .ok none := by
  have := C5_never_written_absent 1 1 [⟨0, [65], 1, 0⟩]
    (by rw [atomCapacity_mkZPA]; norm_num)
    (by simp [wroteSlot])
  simpa using this

/-- Claim C8 (confirmed): a successful `write_atom` at index `i` modifies
only the 64 bytes of slot `i` (byte offsets `i*64` through `i*64 + 63` of
the mapped region); every byte outside that range — in particular every byte
of every other slot `j ≠ i` — is unchanged. -/
theorem C8_frame (st st' : ZPAState) (idx : Int) (d : List Nat) (s n : Nat)
    (h : write_atom st idx d s n = .ok (true, st')) :
    (∀ a : Nat, a < idx.toNat * 64 ∨ idx.toNat * 64 + 64 ≤ a →
      st'.mem a = st.mem a) ∧
    (∀ j k : Nat, (j : Int) ≠ idx → k < 64 →
      st'.mem (j * 64 + k) = st.mem (j * 64 + k)) := by
  obtain ⟨i, rfl, hcap, hfit, hadm, hsz, hmem⟩ := write_atom_true_elim st _ d s n st' h
  simp only [Int.toNat_natCast]
  constructor
  · intro a ha
    rw [hmem]
    exact writeFields_ne _ _ _ _ _ _ (cleanPayload_length d) a (by omega)
  · intro j k hj hk
    have hji : j ≠ i := fun hc => hj (by rw [hc])
    rw [hmem]
    exact writeFields_ne _ _ _ _ _ _ (cleanPayload_length d) _ (by omega)

/-- Claim C8, witness: writing slot 0 of a fresh 1 MB engine leaves byte 100
(inside slot 1) unchanged. -/
theorem C8_witness :
    (stepWrite (mkZPA 1) ⟨0, [66], 1, 0⟩).mem 100 = (mkZPA 1).mem 100 := by
  have hadm : H_THRESHOLD ≤ calculate_h_score [66] := by
    rw [calculate_h_score_of_ne_nil _ (by decide),
      show ([66] : List Nat).dedup = [66] by decide]
    norm_num [min_def, H_THRESHOLD, PHI]
  have hw := write_atom_ok_true (mkZPA 1) 0 [66] 1 0
    (by rw [atomCapacity_mkZPA]; norm_num) (by simp [mkZPA]) hadm
  simp only [Nat.cast_zero] at hw
  simp only [stepWrite]
  rw [hw]
  exact (C8_frame (mkZPA 1) _ 0 [66] 1 0 hw).1 100 (Or.inr (by norm_num))

/-- Claim C9 (confirmed): the payload field is a 32-byte C character array,
so the payload returned by `read_atom` holds the stored bytes only up to
(excluding) the first zero byte: after a successful write the read payload
is `cleanPayload d` truncated at the first NUL; a stored payload shorter
than 32 bytes with no zero bytes reads back exactly (without its padding),
and a payload with an interior zero byte reads back truncated there. -/
theorem C9_payload_nul_truncation (st st' : ZPAState) (idx : Int) (d : List Nat)
    (s n : Nat) (h : write_atom st idx d s n = .ok (true, st')) :
    readPayload st' idx = some ((cleanPayload d).takeWhile (fun b => b != 0)) ∧
    ((∀ b ∈ d, b ≠ 0) → d.length ≤ 32 → readPayload st' idx = some d) ∧
    (∀ pre post : List Nat, d = pre ++ 0 :: post → (∀ b ∈ pre, b ≠ 0) →
      pre.length < 32 → readPayload st' idx = some pre) := by
  have h1 := readPayload_after_write st st' idx d s n h
  refine ⟨h1, ?_, ?_⟩
  · intro hz hlen
    rw [h1]
    congr 1
    have htake : d.take 32 = d := List.take_of_length_le hlen
    unfold cleanPayload ljust32
    rw [htake]
    rcases Nat.lt_or_ge d.length 32 with hlt | hge
    · obtain ⟨k, hk⟩ : ∃ k, 32 - d.length = k + 1 := ⟨32 - d.length - 1, by omega⟩
      rw [hk, List.replicate_succ]
      exact takeWhile_nonzero_append d _ hz
    · rw [show 32 - d.length = 0 by omega]
      simp only [List.replicate_zero, List.append_nil]
      exact takeWhile_nonzero_self d hz
  · intro pre post hd hz hlen
    rw [h1, hd]
    congr 1
    unfold cleanPayload ljust32
    rw [List.take_append_eq_append_take, List.take_of_length_le (by omega)]
    obtain ⟨k, hk⟩ : ∃ k, 32 - pre.length = k + 1 := ⟨32 - pre.length - 1, by omega⟩
    rw [hk, List.take_succ_cons]
    simp only [List.append_assoc, List.cons_append]
    exact takeWhile_nonzero_append pre _ hz

/-- Claim C9, witness: writing the payload `[65, 0, 66]` (interior NUL at
position 1) to slot 0 of a fresh 1 MB engine reads back as `[65]`. -/
theorem C9_witness :
    readPayload (stepWrite (mkZPA 1) ⟨0, [65, 0, 66], 1, 0⟩) 0 = some [65] := by
  have hadm : H_THRESHOLD ≤ calculate_h_score [65, 0, 66] := by
    rw [calculate_h_score_of_ne_nil _ (by decide),
      show ([65, 0, 66] : List Nat).dedup = [65, 0, 66] by decide]
    norm_num [min_def, H_THRESHOLD, PHI]
  have hw := write_atom_ok_true (mkZPA 1) 0 [65, 0, 66] 1 0
    (by rw [atomCapacity_mkZPA]; norm_num) (by simp [mkZPA]) hadm
  simp only [Nat.cast_zero] at hw
  simp only [stepWrite]
  rw [hw]
  exact (C9_payload_nul_truncation (mkZPA 1) _ 0 [65, 0, 66] 1 0 hw).2.2
    [65] [66] rfl (by decide) (by norm_num)

/-- Claim C1 (corrected): for a valid index `i` and an admissible payload
`p` (score at least the threshold) with a 2-byte schema tag, `write_atom`
returns `true` and a subsequent `read_atom(i)` returns a record whose
`magic` is the sentinel, whose `schema` equals `s`, and whose `payload`
equals `p` truncated/padded to 32 bytes *and then truncated at the first
zero byte* (ctypes `c_char` semantics). The original claim's "payload
equals p truncated/padded to exactly 32 bytes" fails for payloads shorter
than 32 bytes or containing a NUL: see the counterexample. -/
theorem C1_roundtrip_amended (st : ZPAState) (h64 : st.size_bytes % 64 = 0)
    (i : Nat) (hi : i < atomCapacity st) (p : List Nat) (s n : Nat)
    (hs : s < 65536) (hadm : H_THRESHOLD ≤ calculate_h_score p) :
    ∃ st' : ZPAState, write_atom st (i : Int) p s n = .ok (true, st') ∧
      ∃ v : FC496View, read_atom st' (i : Int) = .ok (some v) ∧
        v.magic = MAGIC_SIG ∧ v.schema = s ∧
        v.payload = (cleanPayload p).takeWhile (fun b => b != 0) := by
  have hfit := fit_of_lt_capacity st h64 i hi
  have hw := write_atom_ok_true st i p s n hi hfit hadm
  refine ⟨⟨st.size_bytes,
    writeFields st.mem (i * 64) n s (hScoreStored (calculate_h_score p))
      (cleanPayload p)⟩, hw,
    readView (writeFields st.mem (i * 64) n s (hScoreStored (calculate_h_score p))
      (cleanPayload p)) (i * 64), ?_, ?_, ?_, ?_⟩
  · exact read_atom_present _ i hfit (decodeLE_writeFields_magic _ _ _ _ _ _)
  · exact decodeLE_writeFields_magic _ _ _ _ _ _
  · exact decodeLE_writeFields_schema _ _ _ _ _ _ hs
  · simp only [readView]
    rw [writeFields_read_payload _ _ _ _ _ _ (cleanPayload_length p)]

/-- Claim C1, the counterexample: the admissible 1-byte payload `[65]`
round-trips to `[65]`, not to `[65]` padded to 32 bytes — the zero padding
is stripped on read, so the read payload differs from
`p` truncated/padded to exactly 32 bytes. -/
theorem C1_counterexample :
    writeOk (write_atom (mkZPA 1) 0 [65] 1 0) = some true ∧
    readPayload (stepWrite (mkZPA 1) ⟨0, [65], 1, 0⟩) 0 = some [65] ∧
    ([65] : List Nat) ≠ cleanPayload [65] ∧
    (cleanPayload [65]).length = 32 := by
  have hadm : H_THRESHOLD ≤ calculate_h_score [65] := by
    rw [calculate_h_score_of_ne_nil _ (by decide),
      show ([65] : List Nat).dedup = [65] by decide]
    norm_num [min_def, H_THRESHOLD, PHI]
  have hw := write_atom_ok_true (mkZPA 1) 0 [65] 1 0
    (by rw [atomCapacity_mkZPA]; norm_num) (by simp [mkZPA]) hadm
  simp only [Nat.cast_zero] at hw
  refine ⟨by rw [hw]; rfl, ?_, by decide, by decide⟩
  simp only [stepWrite]
  rw [hw]
  exact (readPayload_after_write (mkZPA 1) _ 0 [65] 1 0 hw).trans (by decide)

/-- Claim C1, witness: the amended round-trip at index 0 of a 1 MB engine
with payload `[65, 66]` and schema 1. -/
theorem C1_witness :
    ∃ st' : ZPAState, write_atom (mkZPA 1) 0 [65, 66] 1 0 = .ok (true, st') ∧
      ∃ v : FC496View, read_atom st' 0 = .ok (some v) ∧
        v.magic = MAGIC_SIG ∧ v.schema = 1 ∧
        v.payload = (cleanPayload [65, 66]).takeWhile (fun b => b != 0) := by
  have hadm : H_THRESHOLD ≤ calculate_h_score [65, 66] := by
    rw [calculate_h_score_of_ne_nil _ (by decide),
      show ([65, 66] : List Nat).dedup = [65, 66] by decide]
    norm_num [min_def, H_THRESHOLD, PHI]
  have := C1_roundtrip_amended (mkZPA 1) (by simp [mkZPA]) 0
    (by rw [atomCapacity_mkZPA]; norm_num) [65, 66] 1 0 (by norm_num) hadm
  simpa using this

/-- Claim C6 (confirmed): writing twice to the same valid index with two
admissible payloads leaves the slot's 32-byte payload field equal to exactly
the second payload truncated/padded to 32 bytes — no byte of the first
payload survives anywhere in the field — and only the second payload (NUL
truncated, as always on read) is readable. -/
theorem C6_last_write_wins (st : ZPAState) (h64 : st.size_bytes % 64 = 0)
    (i : Nat) (hi : i < atomCapacity st) (p1 p2 : List Nat) (s1 s2 n1 n2 : Nat)
    (h1 : H_THRESHOLD ≤ calculate_h_score p1)
    (h2 : H_THRESHOLD ≤ calculate_h_score p2) :
    ∃ st1 st2 : ZPAState,
      write_atom st (i : Int) p1 s1 n1 = .ok (true, st1) ∧
      write_atom st1 (i : Int) p2 s2 n2 = .ok (true, st2) ∧
      readBytes st2.mem (i * 64 + 24) 32 = cleanPayload p2 ∧
      readPayload st2 (i : Int) =
        some ((cleanPayload p2).takeWhile (fun b => b != 0)) := by
  have hfit := fit_of_lt_capacity st h64 i hi
  have hw1 := write_atom_ok_true st i p1 s1 n1 hi hfit h1
  have hw2 := write_atom_ok_true
    (⟨st.size_bytes, writeFields st.mem (i * 64) n1 s1
      (hScoreStored (calculate_h_score p1)) (cleanPayload p1)⟩ : ZPAState)
    i p2 s2 n2 hi hfit h2
  refine ⟨_, _, hw1, hw2, ?_, ?_⟩
  · exact writeFields_read_payload _ _ _ _ _ _ (cleanPayload_length p2)
  · exact readPayload_after_write _ _ (i : Int) p2 s2 n2 hw2

/-- Claim C6, witness: writing `[65, 66]` then `[67, 68]` to slot 0 of a
1 MB engine leaves only `[67, 68]` (padded) in the payload field. -/
theorem C6_witness :
    ∃ st1 st2 : ZPAState,
      write_atom (mkZPA 1) 0 [65, 66] 1 0 = .ok (true, st1) ∧
      write_atom st1 0 [67, 68] 2 0 = .ok (true, st2) ∧
      readBytes st2.mem 24 32 = cleanPayload [67, 68] ∧
      readPayload st2 0 =
        some ((cleanPayload [67, 68]).takeWhile (fun b => b != 0)) := by
  have hadm1 : H_THRESHOLD ≤ calculate_h_score [65, 66] := by
    rw [calculate_h_score_of_ne_nil _ (by decide),
      show ([65, 66] : List Nat).dedup = [65, 66] by decide]
    norm_num [min_def, H_THRESHOLD, PHI]
  have hadm2 : H_THRESHOLD ≤ calculate_h_score [67, 68] := by
    rw [calculate_h_score_of_ne_nil _ (by decide),
      show ([67, 68] : List Nat).dedup = [67, 68] by decide]
    norm_num [min_def, H_THRESHOLD, PHI]
  have := C6_last_write_wins (mkZPA 1) (by simp [mkZPA]) 0
    (by rw [atomCapacity_mkZPA]; norm_num) [65, 66] [67, 68] 1 2 0 0 hadm1 hadm2
  simpa using this

/-- Claim C3 (corrected): `write_atom` raises `IndexError` exactly when
`index ≥ capacity` (the only bounds check in the source, performed first),
and `write_atom(capacity - 1, ...)` with an admissible payload succeeds; but
a negative index in `write_atom` with an admissible payload, and *any*
out-of-range index in `read_atom` (which has no bounds check of its own),
fail with the ctypes buffer `ValueError`, not with `IndexError`. The
original claim's "read_atom(-1) fails with IndexOutOfRange" is false: see
the counterexample. -/
theorem C3_bounds_amended (size_mb : Nat) (hmb : 1 ≤ size_mb) (idx : Int)
    (d : List Nat) (s n : Nat) (hadm : H_THRESHOLD ≤ calculate_h_score d) :
    (∀ j : Int, (atomCapacity (mkZPA size_mb) : Int) ≤ j →
      write_atom (mkZPA size_mb) j d s n = .error .indexError) ∧
    (idx < 0 → write_atom (mkZPA size_mb) idx d s n = .error .valueError) ∧
    read_atom (mkZPA size_mb) (-1) = .error .valueError ∧
    (∀ j : Int, (atomCapacity (mkZPA size_mb) : Int) ≤ j →
      read_atom (mkZPA size_mb) j = .error .valueError) ∧
    writeOk (write_atom (mkZPA size_mb)
      ((atomCapacity (mkZPA size_mb) : Int) - 1) d s n) = some true := by
  have hc := atomCapacity_mkZPA size_mb
  have hsz : (mkZPA size_mb).size_bytes = size_mb * 1024 * 1024 := rfl
  refine ⟨?_, ?_, ?_, ?_, ?_⟩
  · intro j hj
    exact write_atom_indexError _ j d s n hj
  · intro hneg
    exact write_atom_neg_valueError _ idx d s n hneg hadm
  · exact read_atom_neg_valueError _ (-1) (by norm_num)
  · intro j hj
    rw [hc] at hj
    apply read_atom_pastEnd_valueError _ j (by omega)
    rw [hsz]
    omega
  · have h1 : ((atomCapacity (mkZPA size_mb) : Int) - 1) =
        (((atomCapacity (mkZPA size_mb) - 1 : Nat)) : Int) := by
      rw [hc]
      omega
    rw [h1, write_atom_ok_true (mkZPA size_mb) (atomCapacity (mkZPA size_mb) - 1)
      d s n (by rw [hc]; omega) (by rw [hc, hsz]; omega) hadm]
    rfl

/-- Claim C3, the counterexample: `read_atom(-1)` on a 1 MB engine fails
with the ctypes buffer `ValueError` (negative offset), which is a different
error from `IndexError` — the claim says both out-of-range operations fail
with `IndexOutOfRange`. -/
theorem C3_counterexample :
    read_atom (mkZPA 1) (-1) = .error .valueError ∧
    PyError.valueError ≠ PyError.indexError :=
  ⟨read_atom_neg_valueError (mkZPA 1) (-1) (by norm_num), by decide⟩

/-- Claim C3, witness: on a 1 MB engine, a write at `capacity` raises
`IndexError`, a write at `capacity - 1` with the admissible payload
`[65, 66]` succeeds, and `read_atom(-1)` raises `ValueError`. -/
theorem C3_witness :
    write_atom (mkZPA 1) ((atomCapacity (mkZPA 1) : Int)) [65, 66] 1 0 =
      .error .indexError ∧
    writeOk (write_atom (mkZPA 1) ((atomCapacity (mkZPA 1) : Int) - 1)
      [65, 66] 1 0) = some true ∧
    read_atom (mkZPA 1) (-1) = .error .valueError := by
  have hadm : H_THRESHOLD ≤ calculate_h_score [65, 66] := by
    rw [calculate_h_score_of_ne_nil _ (by decide),
      show ([65, 66] : List Nat).dedup = [65, 66] by decide]
    norm_num [min_def, H_THRESHOLD, PHI]
  have h := C3_bounds_amended 1 (le_refl 1) (-1) [65, 66] 1 0 hadm
  exact ⟨h.1 _ (le_refl _), h.2.2.2.2, h.2.2.1⟩


/-- Claim C4 (confirmed): on an engine built with `size_mb = 1` (capacity
16384) over a zero-filled extent, writing
`b"Lichen Universe Semantic Payload V3"` with schema 1 at index 0 is
admitted (its score — distinct-byte ratio times PHI, capped at 0.99 —
exceeds the threshold) and returns `true`; a subsequent `read_atom(0)`
returns a record whose payload is exactly the first 32 bytes of the string
(truncated, no padding), and `read_atom(1)` returns absent. Holds for every
write timestamp `n`. -/
theorem C4_concrete_scenario (n : Nat) :
    atomCapacity (mkZPA 1) = 16384 ∧
    H_THRESHOLD < calculate_h_score lichenPayload ∧
    ∃ st' : ZPAState,
      write_atom (mkZPA 1) 0 lichenPayload 1 n = .ok (true, st') ∧
      readPayload st' 0 = some (lichenPayload.take 32) ∧
      (lichenPayload.take 32).length = 32 ∧
      read_atom st' 1 = .ok none := by
  have hsc : H_THRESHOLD < calculate_h_score lichenPayload := by
    rw [calculate_h_score_of_ne_nil _ (by decide),
      show lichenPayload.dedup.length = 22 by decide,
      show lichenPayload.length = 35 by decide]
    norm_num [min_def, H_THRESHOLD, PHI]
  have hw := write_atom_ok_true (mkZPA 1) 0 lichenPayload 1 n
    (by rw [atomCapacity_mkZPA]; norm_num) (by simp [mkZPA]) (le_of_lt hsc)
  simp only [Nat.cast_zero] at hw
  have hrp := readPayload_after_write (mkZPA 1) _ 0 lichenPayload 1 n hw
  have habs := read_other_slot_after_write (mkZPA 1) _ 0 lichenPayload 1 n hw 1
    (by norm_num) (by simp [mkZPA]) rfl rfl
  refine ⟨by rw [atomCapacity_mkZPA], hsc,
    _, hw, hrp.trans (by decide), by decide, ?_⟩
  simpa using habs
